import Mathlib

/-!
Verification of the RAG retrieval core (`core/src/rag/{store.rs, indexer.rs, mod.rs,
types.rs}`) against its specification.

Modelling conventions:
* `f32` values are embedded as `Option ℝ`: `some x` is a finite float value with exact
  (unrounded) arithmetic, `none` is NaN.  NaN propagates through arithmetic exactly as
  in IEEE 754; rounding and overflow to infinity are outside the model.
* Rust `String` / `&str` values are embedded as their UTF-8 byte sequences, `List Nat`,
  because `chunk_text` slices strings at byte offsets (`text[start..end]`), which
  panics when an offset is not a character boundary.
* Fallible or panicking code returns `Option` / `Except`; a `while` loop is given
  explicit fuel, and exhausting arbitrary fuel is proved where the loop diverges.
-/

namespace Rag

/-- A float value: `some x` = finite value `x` (exact arithmetic), `none` = NaN. -/
abbrev Fl := Option ℝ

/-- Float addition with NaN propagation. -/
noncomputable def fadd : Fl → Fl → Fl
  | some a, some b => some (a + b)
  | _, _ => none

/-- Float multiplication with NaN propagation. -/
noncomputable def fmul : Fl → Fl → Fl
  | some a, some b => some (a * b)
  | _, _ => none

/-- Rust `Iterator::sum` over `f32`: left fold of `+` starting from `0.0`. -/
noncomputable def fsum (l : List Fl) : Fl := l.foldl fadd (some 0)

/-- Rust `f32::sqrt`: NaN on NaN or negative input, otherwise the exact square root. -/
noncomputable def fsqrt : Fl → Fl
  | some a => if a < 0 then none else some (Real.sqrt a)
  | none => none

/-- Float division.  In `cosine_similarity` the divisor is checked nonzero before
dividing, so the zero-divisor case (which would be ±inf or NaN) is unreachable;
it is mapped to `none`. -/
noncomputable def fdiv : Fl → Fl → Fl
  | some a, some b => if b = 0 then none else some (a / b)
  | _, _ => none

/-- Embeds a NaN-free real vector as a float vector. -/
def toFl (v : List ℝ) : List Fl := v.map some

/-- Source `store.rs` line 58: `a.iter().zip(b.iter()).map(|(x, y)| x * y).sum()`. -/
noncomputable def dotProduct (a b : List Fl) : Fl := fsum (List.zipWith fmul a b)

/-- Source `store.rs` lines 59/60 before `sqrt`: `a.iter().map(|x| x * x).sum::<f32>()`. -/
noncomputable def sumSquares (a : List Fl) : Fl := fsum (a.map fun x => fmul x x)

/-- Source `store.rs` lines 59/60: `a.iter().map(|x| x * x).sum::<f32>().sqrt()`. -/
noncomputable def magnitude (a : List Fl) : Fl := fsqrt (sumSquares a)

/-- Source `store.rs` `cosine_similarity` (lines 55-69): returns `0.0` on length mismatch,
computes the dot product and the two magnitudes, returns `0.0` when either magnitude
equals `0.0` (NaN compares unequal to `0.0`), otherwise divides. -/
noncomputable def cosine_similarity (a b : List Fl) : Fl :=
  if a.length ≠ b.length then some 0
  else if magnitude a = some 0 ∨ magnitude b = some 0 then some 0
  else fdiv (dotProduct a b) (fmul (magnitude a) (magnitude b))

/-- Source `types.rs` `Document`.  Strings are UTF-8 byte lists; `metadata` is the
`HashMap<String, String>` observed through lookup, modelled as an association list
where insertion prepends (so a lookup sees the latest insertion, as in a map). -/
structure Document where
  id : List Nat
  content : List Nat
  embedding : List Fl
  metadata : List (List Nat × List Nat)

/-- Rust `Document::new`: empty metadata. -/
def Document.new (id content : List Nat) (embedding : List Fl) : Document :=
  ⟨id, content, embedding, []⟩

/-- Rust `Document::with_metadata`: `HashMap::insert` (latest insertion wins on lookup). -/
def Document.with_metadata (d : Document) (k v : List Nat) : Document :=
  { d with metadata := (k, v) :: d.metadata }

/-- Source `types.rs` `SearchResult`. -/
structure SearchResult where
  document : Document
  score : Fl

/-- The reference `VectorStore` (`store.rs`): the document vector guarded by the
`RwLock`, observed in a single-threaded execution. -/
abbrev VectorStore := List Document

/-- Rust `VectorStore::add` (`store.rs` lines 18-21): `docs.push(document)` — an
unconditional append, with no lookup of the incoming `id`. -/
def VectorStore.add (s : VectorStore) (d : Document) : VectorStore := s ++ [d]

/-- Rust `VectorStore::count`. -/
def VectorStore.count (s : VectorStore) : Nat := s.length

/-- Rust `VectorStore::clear`. -/
def VectorStore.clear (_ : VectorStore) : VectorStore := []

/-- The comparator closure of `store.rs` line 38, `b.score.partial_cmp(&a.score)`,
read as "`a` sorts no later than `b`": `some true` iff the `Ordering` is not
`Greater`, i.e. iff `b.score ≤ a.score` (descending order); `none` when
`partial_cmp` returns `None`, i.e. when either score is NaN, in which case the
`.unwrap()` panics. -/
noncomputable def resLe (a b : SearchResult) : Option Bool :=
  match b.score, a.score with
  | some y, some x => some (decide (y ≤ x))
  | _, _ => none

/-- One insertion step of a stable comparison sort whose comparator may panic
(`none`).  Inserts `a` before the first element it sorts no later than. -/
noncomputable def orderedInsertP (le : SearchResult → SearchResult → Option Bool)
    (a : SearchResult) : List SearchResult → Option (List SearchResult)
  | [] => some [a]
  | b :: l =>
    match le a b with
    | none => none
    | some true => some (a :: b :: l)
    | some false => (orderedInsertP le a l).map (b :: ·)

/-- Rust `Vec::sort_by` with a panicking comparator, modelled as a stable insertion sort.
`sort_by` is a stable sort, so on a comparator that is a total preorder it produces
exactly this output; and like the library sort it performs no comparison on lists
of length `≤ 1`, while on length `≥ 2` every element takes part in at least one
comparison, so a NaN score panics (`none`) exactly when this model returns `none`. -/
noncomputable def insertionSortP (le : SearchResult → SearchResult → Option Bool) :
    List SearchResult → Option (List SearchResult)
  | [] => some []
  | a :: l => (insertionSortP le l).bind (orderedInsertP le a)

/-- Source `store.rs` lines 27-35: the scored results, one per stored document, in
insertion order. -/
noncomputable def scoredResults (s : VectorStore) (q : List Fl) : List SearchResult :=
  s.map fun d => ⟨d, cosine_similarity q d.embedding⟩

/-- Rust `VectorStore::search` (`store.rs` lines 24-41): score every document, sort by
descending score with the unwrapping comparator (`none` = panic), truncate to
`top_k`. -/
noncomputable def VectorStore.search (s : VectorStore) (q : List Fl) (topk : Nat) :
    Option (List SearchResult) :=
  (insertionSortP resLe (scoredResults s q)).map (List.take topk)

/-- Rust `str::is_char_boundary` on the byte sequence: position `0`, the end of the
text, or a byte that is not a UTF-8 continuation byte. -/
def isCharBoundary (text : List Nat) (i : Nat) : Bool :=
  i = 0 ||
    match text.get? i with
    | some b => decide (b < 128) || decide (192 ≤ b)
    | none => decide (i = text.length)

/-- Rust slicing `&text[s..e]`: panics (`none`) unless `s ≤ e` and both offsets are
character boundaries. -/
def byteSlice (text : List Nat) (s e : Nat) : Option (List Nat) :=
  if s ≤ e && isCharBoundary text s && isCharBoundary text e then
    some ((text.drop s).take (e - s))
  else none

/-- How a `chunk_text` call can fail to return: a panic (slicing off a character
boundary, or the debug-mode underflow of `chunk_size - overlap`), or divergence
(the `while` loop never exits, modelled as exhausting arbitrary fuel). -/
inductive ChunkErr where
  | panic : ChunkErr
  | diverge : ChunkErr
deriving DecidableEq, Repr

/-- The `while start < text.len()` loop of `indexer.rs` `chunk_text` (lines 20-31),
with explicit fuel.  Each iteration slices `text[start..min(start+chunk_size, len)]`,
pushes it, breaks if the end reached `len`, otherwise advances `start` by
`chunk_size - overlap` (whose underflow when `overlap > chunk_size` is a panic). -/
def chunkLoop (text : List Nat) (chunkSize overlap : Nat) :
    Nat → Nat → List (List Nat) → Except ChunkErr (List (List Nat))
  | 0, _, _ => .error .diverge
  | fuel + 1, start, acc =>
    if start < text.length then
      match byteSlice text start (min (start + chunkSize) text.length) with
      | none => .error .panic
      | some piece =>
        if min (start + chunkSize) text.length = text.length then
          .ok (acc ++ [piece])
        else if chunkSize < overlap then .error .panic
        else chunkLoop text chunkSize overlap fuel (start + (chunkSize - overlap))
            (acc ++ [piece])
    else .ok acc

/-- Source `indexer.rs` `chunk_text` (lines 14-34).  `text.length + 1` fuel is enough for
every terminating execution (the step is at least `1` whenever `overlap <
chunk_size`, and the loop is entered only when `chunk_size < text.length`). -/
def chunk_text (text : List Nat) (chunkSize overlap : Nat) :
    Except ChunkErr (List (List Nat)) :=
  if text.length ≤ chunkSize then .ok [text]
  else chunkLoop text chunkSize overlap (text.length + 1) 0 []

/-- Source `embedder.rs` `EmbedderError`: a transport-level Ollama failure or
`NoEmbeddings` (empty embeddings array from the service). -/
inductive EmbErr where
  | unavailable : EmbErr
  | noEmbeddings : EmbErr
deriving DecidableEq, Repr

/-- An embedding call, `mod.rs` `self.embedder.embed(text).await`: the external
service is modelled as a function from the text to its outcome. -/
abbrev EmbedFn := List Nat → Except EmbErr (List Fl)

/-- How `Manager::index_directory` can fail after the directory walk: a chunking
panic, chunker divergence, or a surfaced embedding error. -/
inductive RunErr where
  | panic : RunErr
  | diverge : RunErr
  | embed : EmbErr → RunErr
deriving DecidableEq, Repr

/-- Bytes of `"_chunk_"`. -/
def chunkSepBytes : List Nat := [95, 99, 104, 117, 110, 107, 95]

/-- Bytes of `"source"`. -/
def sourceKey : List Nat := [115, 111, 117, 114, 99, 101]

/-- Bytes of `"chunk"`. -/
def chunkKey : List Nat := [99, 104, 117, 110, 107]

/-- The decimal representation of a natural number, as ASCII bytes
(`i.to_string()` / `format!("{}", i)`). -/
def natStr (n : Nat) : List Nat := (Nat.toDigits 10 n).map Char.toNat

/-- One document built by `Manager::index_directory` (`mod.rs` lines 80-86):
id `"<path>_chunk_<i>"`, content the chunk, metadata `source = path` and
`chunk = i` (two `with_metadata` calls). -/
def chunkDoc (path chunk : List Nat) (i : Nat) (emb : List Fl) : Document :=
  ((Document.new (path ++ chunkSepBytes ++ natStr i) chunk emb).with_metadata
      sourceKey path).with_metadata chunkKey (natStr i)

/-- The inner `for (i, chunk) in chunks.into_iter().enumerate()` loop of
`index_directory`: embed each chunk (an error aborts and surfaces) and `add` the
resulting document to the store. -/
def indexChunks (embed : EmbedFn) (path : List Nat) :
    Nat → List (List Nat) → VectorStore → Except RunErr VectorStore
  | _, [], st => .ok st
  | i, c :: rest, st =>
    match embed c with
    | .error e => .error (.embed e)
    | .ok v => indexChunks embed path (i + 1) rest (st.add (chunkDoc path c i v))

/-- A file collected by the directory walk, `indexer.rs` `IndexedFile`: the
displayed path and the file content (both as bytes). -/
structure IndexedFile where
  path : List Nat
  content : List Nat

/-- Rust `Manager::index_directory` (`mod.rs` lines 72-95) after the directory walk has
produced `files`: chunk each file with the configured parameters, embed and store
every chunk, count one per fully processed file. -/
def index_directory (embed : EmbedFn) (cs ov : Nat) :
    List IndexedFile → VectorStore → Except RunErr (Nat × VectorStore)
  | [], st => .ok (0, st)
  | f :: rest, st =>
    match chunk_text f.content cs ov with
    | .error .panic => .error .panic
    | .error .diverge => .error .diverge
    | .ok chunks =>
      match indexChunks embed f.path 0 chunks st with
      | .error e => .error e
      | .ok st' =>
        match index_directory embed cs ov rest st' with
        | .error e => .error e
        | .ok (n, st'') => .ok (n + 1, st'')

/-- The documents `index_directory` builds for the chunks of one file, starting at
chunk index `i`: one `chunkDoc` per chunk, embedded with `embed` (written with the
successful value of each embedding; used under the hypothesis that every `embed`
call returns `Except.ok`). -/
def chunkDocs (embed : EmbedFn) (path : List Nat) :
    Nat → List (List Nat) → List Document
  | _, [] => []
  | i, c :: rest =>
    chunkDoc path c i ((embed c).toOption.getD []) :: chunkDocs embed path (i + 1) rest

/-- The bytes of `"0123456789ABCDEF"`, the spec's chunking example. -/
def sampleBytes : List Nat :=
  [48, 49, 50, 51, 52, 53, 54, 55, 56, 57, 65, 66, 67, 68, 69, 70]

/-- Bytes of the fixed header `"\n\nRelevant context from your knowledge base:\n"`. -/
def contextHeader : List Nat :=
  [10, 10, 82, 101, 108, 101, 118, 97, 110, 116, 32, 99, 111, 110, 116, 101, 120,
   116, 32, 102, 114, 111, 109, 32, 121, 111, 117, 114, 32, 107, 110, 111, 119,
   108, 101, 100, 103, 101, 32, 98, 97, 115, 101, 58, 10]

/-- The rendered block of `retrieve_context` (`mod.rs` lines 110-114): the header
followed by `"\n[<i+1>] <content>\n"` for each result in ranked order. -/
def renderResults (results : List SearchResult) : List Nat :=
  contextHeader ++
    (results.enum.flatMap fun p =>
      [10, 91] ++ natStr (p.1 + 1) ++ [93, 32] ++ p.2.document.content ++ [10])

/-- Rust `Manager::retrieve_context` (`mod.rs` lines 98-117): empty store → empty
string; then embed the query (an error surfaces); then search with the configured
`top_k` (`none` = the search panicked); empty results → empty string; otherwise the
rendered block. -/
noncomputable def retrieve_context (embed : EmbedFn) (top_k : Nat)
    (st : VectorStore) (query : List Nat) : Option (Except EmbErr (List Nat)) :=
  if st.count = 0 then some (.ok [])
  else
    match embed query with
    | .error e => some (.error e)
    | .ok qv =>
      match st.search qv top_k with
      | none => none
      | some results =>
        if results.length = 0 then some (.ok [])
        else some (.ok (renderResults results))

/-- The dot product named in the spec formula, over NaN-free real vectors. -/
def realDot (a b : List ℝ) : ℝ := (List.zipWith (fun x y => x * y) a b).sum

/-- Sum of squares of a real vector. -/
def realSumSq (a : List ℝ) : ℝ := (a.map fun x => x * x).sum

/-- The Euclidean norm `‖a‖` named in the spec formula. -/
noncomputable def realNorm (a : List ℝ) : ℝ := Real.sqrt (realSumSq a)

/-- Every score in the result list is a non-NaN value. -/
def AllSome (l : List SearchResult) : Prop := ∀ r ∈ l, ∃ x : ℝ, r.score = some x

/-- Descending-score order between two results whose scores are non-NaN values. -/
def scoreGe (a b : SearchResult) : Prop :=
  ∃ x y : ℝ, a.score = some x ∧ b.score = some y ∧ y ≤ x

/-! ### Lemmas: float arithmetic on NaN-free vectors -/

theorem foldl_fadd_toFl (l : List ℝ) (acc : ℝ) :
    List.foldl fadd (some acc) (toFl l) = some (acc + l.sum) := by
  induction l generalizing acc with
  | nil => simp [toFl]
  | cons x l ih =>
    have h1 : toFl (x :: l) = some x :: toFl l := rfl
    rw [h1, List.foldl_cons]
    have h2 : fadd (some acc) (some x) = some (acc + x) := rfl
    rw [h2, ih, List.sum_cons]
    exact congrArg some (by ring)

theorem fsum_toFl (l : List ℝ) : fsum (toFl l) = some l.sum := by
  simp [fsum, foldl_fadd_toFl]

theorem zipWith_fmul_toFl (a b : List ℝ) :
    List.zipWith fmul (toFl a) (toFl b) = toFl (List.zipWith (fun x y => x * y) a b) := by
  induction a generalizing b with
  | nil => simp [toFl]
  | cons x a ih =>
    cases b with
    | nil => simp [toFl]
    | cons y b =>
      have h1 : List.zipWith fmul (toFl (x :: a)) (toFl (y :: b)) =
          some (x * y) :: List.zipWith fmul (toFl a) (toFl b) := rfl
      have h2 : toFl (List.zipWith (fun x y => x * y) (x :: a) (y :: b)) =
          some (x * y) :: toFl (List.zipWith (fun x y => x * y) a b) := rfl
      rw [h1, h2, ih]

theorem dotProduct_toFl (a b : List ℝ) :
    dotProduct (toFl a) (toFl b) = some (realDot a b) := by
  rw [dotProduct, zipWith_fmul_toFl, fsum_toFl, realDot]

theorem map_fmul_toFl (a : List ℝ) :
    (toFl a).map (fun x => fmul x x) = toFl (a.map fun x => x * x) := by
  induction a with
  | nil => rfl
  | cons x a ih =>
    have h1 : (toFl (x :: a)).map (fun x => fmul x x) =
        some (x * x) :: (toFl a).map (fun x => fmul x x) := rfl
    have h2 : toFl ((x :: a).map fun x => x * x) =
        some (x * x) :: toFl (a.map fun x => x * x) := rfl
    rw [h1, h2, ih]

theorem sumSquares_toFl (a : List ℝ) : sumSquares (toFl a) = some (realSumSq a) := by
  rw [sumSquares, map_fmul_toFl, fsum_toFl, realSumSq]

theorem realSumSq_nonneg (a : List ℝ) : 0 ≤ realSumSq a := by
  apply List.sum_nonneg
  intro x hx
  simp only [List.mem_map] at hx
  obtain ⟨y, _, rfl⟩ := hx
  exact mul_self_nonneg y

theorem magnitude_toFl (a : List ℝ) : magnitude (toFl a) = some (realNorm a) := by
  rw [magnitude, sumSquares_toFl, fsqrt, realNorm]
  rw [if_neg (not_lt.mpr (realSumSq_nonneg a))]

theorem realNorm_nonneg (a : List ℝ) : 0 ≤ realNorm a := Real.sqrt_nonneg _

theorem realNorm_eq_zero_iff (a : List ℝ) : realNorm a = 0 ↔ realSumSq a = 0 := by
  rw [realNorm, Real.sqrt_eq_zero (realSumSq_nonneg a)]

theorem magnitude_toFl_ne (a : List ℝ) (h : realSumSq a ≠ 0) :
    magnitude (toFl a) ≠ some 0 := by
  rw [magnitude_toFl]
  intro hc
  exact h ((realNorm_eq_zero_iff a).mp (Option.some_injective _ hc))

theorem realDot_self (a : List ℝ) : realDot a a = realSumSq a := by
  induction a with
  | nil => simp [realDot, realSumSq]
  | cons x a ih =>
    simp only [realDot, realSumSq, List.zipWith_cons_cons, List.map_cons,
      List.sum_cons] at ih ⊢
    rw [ih]

/-! ### Lemmas: cosine similarity on NaN-free vectors -/

theorem cosine_toFl_formula (a b : List ℝ) (hl : a.length = b.length)
    (ha : magnitude (toFl a) ≠ some 0) (hb : magnitude (toFl b) ≠ some 0) :
    cosine_similarity (toFl a) (toFl b) =
      some (realDot a b / (realNorm a * realNorm b)) := by
  have hlen : (toFl a).length = (toFl b).length := by simp [toFl, hl]
  rw [cosine_similarity, if_neg (by simp [hlen]), if_neg (by simp [ha, hb])]
  rw [dotProduct_toFl, magnitude_toFl, magnitude_toFl]
  have hna : realNorm a ≠ 0 := by
    intro h; exact ha (by rw [magnitude_toFl, h])
  have hnb : realNorm b ≠ 0 := by
    intro h; exact hb (by rw [magnitude_toFl, h])
  have h1 : fmul (some (realNorm a)) (some (realNorm b)) =
      some (realNorm a * realNorm b) := rfl
  rw [h1, fdiv, if_neg (mul_ne_zero hna hnb)]

theorem cosine_toFl_zero_of_len (a b : List ℝ) (hl : a.length ≠ b.length) :
    cosine_similarity (toFl a) (toFl b) = some 0 := by
  have hlen : (toFl a).length ≠ (toFl b).length := by simp [toFl, hl]
  rw [cosine_similarity, if_pos hlen]

theorem cosine_toFl_zero_of_mag (a b : List ℝ)
    (h : magnitude (toFl a) = some 0 ∨ magnitude (toFl b) = some 0) :
    cosine_similarity (toFl a) (toFl b) = some 0 := by
  rw [cosine_similarity]
  by_cases hl : (toFl a).length ≠ (toFl b).length
  · rw [if_pos hl]
  · rw [if_neg hl, if_pos h]

theorem cosine_toFl_total (a b : List ℝ) :
    ∃ c : ℝ, cosine_similarity (toFl a) (toFl b) = some c := by
  by_cases hl : a.length = b.length
  · by_cases ha : magnitude (toFl a) = some 0
    · exact ⟨0, cosine_toFl_zero_of_mag a b (Or.inl ha)⟩
    · by_cases hb : magnitude (toFl b) = some 0
      · exact ⟨0, cosine_toFl_zero_of_mag a b (Or.inr hb)⟩
      · exact ⟨_, cosine_toFl_formula a b hl ha hb⟩
  · exact ⟨0, cosine_toFl_zero_of_len a b hl⟩

/-- Cauchy–Schwarz for the truncating list dot product. -/
theorem list_cauchy_schwarz (a b : List ℝ) :
    realDot a b ^ 2 ≤ realSumSq a * realSumSq b := by
  induction a generalizing b with
  | nil =>
    simp only [realDot, List.zipWith_nil_left, List.sum_nil]
    simpa using mul_nonneg (realSumSq_nonneg []) (realSumSq_nonneg b)
  | cons x a ih =>
    cases b with
    | nil =>
      simp only [realDot, List.zipWith_nil_right, List.sum_nil]
      simpa using mul_nonneg (realSumSq_nonneg (x :: a)) (realSumSq_nonneg [])
    | cons y b =>
      have hd : (List.zipWith (fun x y => x * y) a b).sum ^ 2 ≤
          (a.map fun x => x * x).sum * (b.map fun x => x * x).sum := ih b
      have hsa : (0 : ℝ) ≤ (a.map fun x => x * x).sum := realSumSq_nonneg a
      have hsb : (0 : ℝ) ≤ (b.map fun x => x * x).sum := realSumSq_nonneg b
      simp only [realDot, realSumSq, List.zipWith_cons_cons, List.map_cons,
        List.sum_cons]
      set d := (List.zipWith (fun x y => x * y) a b).sum
      set sa := (a.map fun x => x * x).sum
      set sb := (b.map fun x => x * x).sum
      rcases eq_or_lt_of_le hsa with hz | hpos
      · have h2 : d ^ 2 = 0 := le_antisymm (by nlinarith) (sq_nonneg d)
        have hd0 : d = 0 := sq_eq_zero_iff.mp h2
        rw [hd0, ← hz]
        nlinarith [mul_nonneg (mul_self_nonneg x) hsb]
      · nlinarith [sq_nonneg (x * d - y * sa), hpos,
          mul_nonneg (add_nonneg (sq_nonneg x) hpos.le) (sub_nonneg.mpr hd)]

theorem realDot_le_norms (a b : List ℝ) : realDot a b ≤ realNorm a * realNorm b := by
  rw [realNorm, realNorm, ← Real.sqrt_mul (realSumSq_nonneg a)]
  rcases le_or_lt (realDot a b) 0 with h | h
  · exact le_trans h (Real.sqrt_nonneg _)
  · rw [Real.le_sqrt h.le]
    · exact list_cauchy_schwarz a b
    · exact mul_nonneg (realSumSq_nonneg a) (realSumSq_nonneg b)

theorem cosine_toFl_le_one (a b : List ℝ) (c : ℝ)
    (h : cosine_similarity (toFl a) (toFl b) = some c) : c ≤ 1 := by
  by_cases hl : a.length = b.length
  · by_cases ha : magnitude (toFl a) = some 0
    · rw [cosine_toFl_zero_of_mag a b (Or.inl ha)] at h
      cases h; norm_num
    · by_cases hb : magnitude (toFl b) = some 0
      · rw [cosine_toFl_zero_of_mag a b (Or.inr hb)] at h
        cases h; norm_num
      · rw [cosine_toFl_formula a b hl ha hb] at h
        cases h
        have hna : realNorm a ≠ 0 := fun hz => ha (by rw [magnitude_toFl, hz])
        have hnb : realNorm b ≠ 0 := fun hz => hb (by rw [magnitude_toFl, hz])
        have hpos : 0 < realNorm a * realNorm b :=
          lt_of_le_of_ne (mul_nonneg (realNorm_nonneg a) (realNorm_nonneg b))
            (Ne.symm (mul_ne_zero hna hnb))
        rw [div_le_one hpos]
        exact realDot_le_norms a b
  · rw [cosine_toFl_zero_of_len a b hl] at h
    cases h; norm_num

theorem cosine_toFl_self (a : List ℝ) (ha : magnitude (toFl a) ≠ some 0) :
    cosine_similarity (toFl a) (toFl a) = some 1 := by
  rw [cosine_toFl_formula a a rfl ha ha, realDot_self]
  have hs : realSumSq a ≠ 0 := by
    intro h
    exact ha (by rw [magnitude_toFl, (realNorm_eq_zero_iff a).mpr h])
  rw [realNorm, Real.mul_self_sqrt (realSumSq_nonneg a), div_self hs]

/-- Claim C2: for NaN-free vectors `a`, `b` of equal length with nonzero magnitudes,
`cosine_similarity` computes `(a·b) / (‖a‖·‖b‖)`; on a length mismatch or a zero
magnitude it returns `0.0` instead of failing; and on the spec's concrete examples
`cosine_similarity([1,0,0],[1,0,0]) = 1.0` and `cosine_similarity([1,0],[0,1]) = 0.0`. -/
theorem C2_cosine_similarity_spec :
    (∀ a b : List ℝ, a.length = b.length → magnitude (toFl a) ≠ some 0 →
      magnitude (toFl b) ≠ some 0 →
      cosine_similarity (toFl a) (toFl b) =
        some (realDot a b / (realNorm a * realNorm b))) ∧
    (∀ a b : List ℝ, a.length ≠ b.length →
      cosine_similarity (toFl a) (toFl b) = some 0) ∧
    (∀ a b : List ℝ, magnitude (toFl a) = some 0 ∨ magnitude (toFl b) = some 0 →
      cosine_similarity (toFl a) (toFl b) = some 0) ∧
    cosine_similarity (toFl [1, 0, 0]) (toFl [1, 0, 0]) = some 1 ∧
    cosine_similarity (toFl [1, 0]) (toFl [0, 1]) = some 0 := by
  refine ⟨cosine_toFl_formula, cosine_toFl_zero_of_len, cosine_toFl_zero_of_mag, ?_, ?_⟩
  · exact cosine_toFl_self [1, 0, 0]
      (magnitude_toFl_ne [1, 0, 0] (by norm_num [realSumSq]))
  · rw [cosine_toFl_formula [1, 0] [0, 1] rfl
      (magnitude_toFl_ne [1, 0] (by norm_num [realSumSq]))
      (magnitude_toFl_ne [0, 1] (by norm_num [realSumSq]))]
    have hd : realDot [1, 0] [0, 1] = 0 := by norm_num [realDot]
    rw [hd, zero_div]

/-- Witness for C2: the general formula applied at the concrete vectors `[2]`, `[2]`. -/
theorem C2_cosine_similarity_spec_witness :
    cosine_similarity (toFl [2]) (toFl [2]) =
      some (realDot [2] [2] / (realNorm [2] * realNorm [2])) :=
  C2_cosine_similarity_spec.1 [2] [2] rfl
    (magnitude_toFl_ne [2] (by norm_num [realSumSq]))
    (magnitude_toFl_ne [2] (by norm_num [realSumSq]))

/-! ### Lemmas: the panicking stable sort -/

theorem resLe_eq_true {a b : SearchResult} {x y : ℝ} (ha : a.score = some x)
    (hb : b.score = some y) (h : y ≤ x) : resLe a b = some true := by
  simp [resLe, ha, hb, h]

theorem resLe_true_scoreGe {a b : SearchResult} (h : resLe a b = some true) :
    scoreGe a b := by
  cases hb : b.score with
  | none => simp [resLe, hb] at h
  | some y =>
    cases ha : a.score with
    | none => simp [resLe, hb, ha] at h
    | some x =>
      simp only [resLe, hb, ha, Option.some.injEq] at h
      exact ⟨x, y, ha, hb, of_decide_eq_true h⟩

theorem resLe_false_scoreGe {a b : SearchResult} (h : resLe a b = some false) :
    scoreGe b a := by
  cases hb : b.score with
  | none => simp [resLe, hb] at h
  | some y =>
    cases ha : a.score with
    | none => simp [resLe, hb, ha] at h
    | some x =>
      simp only [resLe, hb, ha, Option.some.injEq] at h
      exact ⟨y, x, hb, ha, le_of_not_le (of_decide_eq_false h)⟩

theorem scoreGe_trans {a b c : SearchResult} (h1 : scoreGe a b) (h2 : scoreGe b c) :
    scoreGe a c := by
  obtain ⟨x, y, hx, hy, hyx⟩ := h1
  obtain ⟨y', z, hy', hz, hzy⟩ := h2
  rw [hy] at hy'
  cases hy'
  exact ⟨x, z, hx, hz, le_trans hzy hyx⟩

theorem orderedInsertP_perm {a : SearchResult} :
    ∀ {l r : List SearchResult}, orderedInsertP resLe a l = some r → r.Perm (a :: l) := by
  intro l
  induction l with
  | nil =>
    intro r h
    simp only [orderedInsertP, Option.some.injEq] at h
    subst h
    exact List.Perm.refl _
  | cons b t ih =>
    intro r h
    simp only [orderedInsertP] at h
    split at h
    · cases h
    · simp only [Option.some.injEq] at h
      subst h
      exact List.Perm.refl _
    · rw [Option.map_eq_some'] at h
      obtain ⟨r', hr', rfl⟩ := h
      exact ((ih hr').cons b).trans (List.Perm.swap a b t)

theorem orderedInsertP_isSome {a : SearchResult} {x : ℝ} (hx : a.score = some x) :
    ∀ {l : List SearchResult}, AllSome l → ∃ r, orderedInsertP resLe a l = some r := by
  intro l
  induction l with
  | nil => exact fun _ => ⟨[a], rfl⟩
  | cons b t ih =>
    intro hall
    obtain ⟨y, hy⟩ := hall b (List.mem_cons_self b t)
    have ht : AllSome t := fun r hr => hall r (List.mem_cons_of_mem _ hr)
    obtain ⟨r', hr'⟩ := ih ht
    by_cases h : y ≤ x
    · exact ⟨a :: b :: t, by simp [orderedInsertP, resLe, hy, hx, h]⟩
    · exact ⟨b :: r', by simp [orderedInsertP, resLe, hy, hx, h, hr']⟩

theorem orderedInsertP_pairwise {a : SearchResult} :
    ∀ {l r : List SearchResult}, l.Pairwise scoreGe →
      orderedInsertP resLe a l = some r → r.Pairwise scoreGe := by
  intro l
  induction l with
  | nil =>
    intro r _ h
    simp only [orderedInsertP, Option.some.injEq] at h
    subst h
    simp
  | cons b t ih =>
    intro r hp h
    simp only [orderedInsertP] at h
    split at h
    · cases h
    · simp only [Option.some.injEq] at h
      subst h
      rename_i heq
      have hab : scoreGe a b := resLe_true_scoreGe heq
      refine List.Pairwise.cons ?_ hp
      intro x hx
      rcases List.mem_cons.mp hx with rfl | hxt
      · exact hab
      · exact scoreGe_trans hab (List.rel_of_pairwise_cons hp hxt)
    · rw [Option.map_eq_some'] at h
      obtain ⟨r', hr', rfl⟩ := h
      rename_i heq
      have hba : scoreGe b a := resLe_false_scoreGe heq
      refine List.Pairwise.cons ?_ (ih (List.Pairwise.of_cons hp) hr')
      intro x hx
      have hx' : x ∈ a :: t := (orderedInsertP_perm hr').mem_iff.mp hx
      rcases List.mem_cons.mp hx' with rfl | hxt
      · exact hba
      · exact List.rel_of_pairwise_cons hp hxt

theorem orderedInsertP_filter {q : SearchResult → Bool}
    (htie : ∀ u v, q u = true → q v = true → resLe u v = some true)
    {a : SearchResult} :
    ∀ {l r : List SearchResult}, orderedInsertP resLe a l = some r →
      r.filter q = if q a then a :: l.filter q else l.filter q := by
  intro l
  induction l with
  | nil =>
    intro r h
    simp only [orderedInsertP, Option.some.injEq] at h
    subst h
    cases hqa : q a <;> simp [List.filter_cons, hqa]
  | cons b t ih =>
    intro r h
    simp only [orderedInsertP] at h
    split at h
    · cases h
    · simp only [Option.some.injEq] at h
      subst h
      cases hqa : q a <;> simp [List.filter_cons, hqa]
    · rw [Option.map_eq_some'] at h
      obtain ⟨r', hr', rfl⟩ := h
      rename_i heq
      have hrec := ih hr'
      cases hqa : q a with
      | false =>
        simp only [hqa, Bool.false_eq_true, if_false] at hrec ⊢
        rw [List.filter_cons, List.filter_cons, hrec]
      | true =>
        cases hqb : q b with
        | true =>
          rw [htie a b hqa hqb] at heq
          cases heq
        | false =>
          simp only [hqa, if_true] at hrec ⊢
          rw [List.filter_cons, List.filter_cons, hqb, hrec]
          simp

theorem insertionSortP_perm :
    ∀ {l r : List SearchResult}, insertionSortP resLe l = some r → r.Perm l := by
  intro l
  induction l with
  | nil =>
    intro r h
    simp only [insertionSortP, Option.some.injEq] at h
    subst h
    exact List.Perm.refl _
  | cons a t ih =>
    intro r h
    simp only [insertionSortP] at h
    rw [Option.bind_eq_some] at h
    obtain ⟨s, hs, hr⟩ := h
    exact (orderedInsertP_perm hr).trans ((ih hs).cons a)

theorem insertionSortP_isSome :
    ∀ {l : List SearchResult}, AllSome l → ∃ r, insertionSortP resLe l = some r := by
  intro l
  induction l with
  | nil => exact fun _ => ⟨[], rfl⟩
  | cons a t ih =>
    intro hall
    obtain ⟨x, hx⟩ := hall a (List.mem_cons_self a t)
    have ht : AllSome t := fun r hr => hall r (List.mem_cons_of_mem _ hr)
    obtain ⟨s, hs⟩ := ih ht
    have hsall : AllSome s := fun r hr =>
      ht r ((insertionSortP_perm hs).mem_iff.mp hr)
    obtain ⟨r, hr⟩ := orderedInsertP_isSome hx hsall
    exact ⟨r, by rw [insertionSortP, hs]; exact hr⟩

theorem insertionSortP_pairwise :
    ∀ {l r : List SearchResult}, insertionSortP resLe l = some r →
      r.Pairwise scoreGe := by
  intro l
  induction l with
  | nil =>
    intro r h
    simp only [insertionSortP, Option.some.injEq] at h
    subst h
    simp
  | cons a t ih =>
    intro r h
    simp only [insertionSortP] at h
    rw [Option.bind_eq_some] at h
    obtain ⟨s, hs, hr⟩ := h
    exact orderedInsertP_pairwise (ih hs) hr

theorem insertionSortP_filter {q : SearchResult → Bool}
    (htie : ∀ u v, q u = true → q v = true → resLe u v = some true) :
    ∀ {l r : List SearchResult}, insertionSortP resLe l = some r →
      r.filter q = l.filter q := by
  intro l
  induction l with
  | nil =>
    intro r h
    simp only [insertionSortP, Option.some.injEq] at h
    subst h
    rfl
  | cons a t ih =>
    intro r h
    simp only [insertionSortP] at h
    rw [Option.bind_eq_some] at h
    obtain ⟨s, hs, hr⟩ := h
    rw [orderedInsertP_filter htie hr, ih hs, List.filter_cons]

theorem allSome_scored (docs : VectorStore) (q : List ℝ)
    (hreal : ∀ d ∈ docs, ∃ v : List ℝ, d.embedding = toFl v) :
    AllSome (scoredResults docs (toFl q)) := by
  intro r hr
  simp only [scoredResults, List.mem_map] at hr
  obtain ⟨d, hd, rfl⟩ := hr
  obtain ⟨v, hv⟩ := hreal d hd
  obtain ⟨c, hc⟩ := cosine_toFl_total q v
  exact ⟨c, by simp only [hv, hc]⟩

/-- Claim C1: for every store of NaN-free embeddings and every NaN-free query vector,
`search` returns normally, and the returned sequence is the `top_k`-truncation of a
stable descending sort of the cosine-scored results: at most `top_k` results, scores
non-increasing, results of equal score kept in insertion order, every stored
document scored by exact cosine similarity, and `top_k = 0` yields the empty
sequence. -/
theorem C1_search_ranked (docs : VectorStore) (q : List ℝ) (topk : Nat)
    (hreal : ∀ d ∈ docs, ∃ v : List ℝ, d.embedding = toFl v) :
    ∃ full : List SearchResult,
      VectorStore.search docs (toFl q) topk = some (full.take topk) ∧
      full.Perm (scoredResults docs (toFl q)) ∧
      full.Pairwise scoreGe ∧
      (∀ c : ℝ, full.filter (fun r => decide (r.score = some c)) =
        (scoredResults docs (toFl q)).filter (fun r => decide (r.score = some c))) ∧
      (full.take topk).length ≤ topk ∧
      (topk = 0 → full.take topk = []) := by
  obtain ⟨full, hsort⟩ := insertionSortP_isSome (allSome_scored docs q hreal)
  refine ⟨full, ?_, insertionSortP_perm hsort, insertionSortP_pairwise hsort, ?_, ?_, ?_⟩
  · rw [VectorStore.search, hsort, Option.map_some']
  · intro c
    refine insertionSortP_filter ?_ hsort
    intro u v hu hv
    exact resLe_eq_true (of_decide_eq_true hu) (of_decide_eq_true hv) le_rfl
  · rw [List.length_take]
    exact min_le_left _ _
  · intro h
    rw [h, List.take_zero]

/-! ### Lemmas: NaN scores and the sort panic -/

theorem fmul_none (x : Fl) : fmul x none = none := by cases x <;> rfl

theorem fdiv_none (x : Fl) : fdiv x none = none := by cases x <;> rfl

theorem resLe_none_right {a b : SearchResult} (hb : b.score = (none : Fl)) :
    resLe a b = none := by
  cases ha : a.score <;> simp [resLe, ha, hb]

theorem resLe_none_left {a b : SearchResult} (ha : a.score = (none : Fl)) :
    resLe a b = none := by
  cases hb : b.score <;> simp [resLe, ha, hb]

theorem orderedInsertP_none_of_nan {a : SearchResult} (ha : a.score = (none : Fl)) :
    ∀ {s : List SearchResult}, s ≠ [] → orderedInsertP resLe a s = none := by
  intro s hs
  cases s with
  | nil => exact absurd rfl hs
  | cons c s' => simp [orderedInsertP, resLe_none_left (b := c) ha]

theorem orderedInsertP_none_of_head_nan {a c : SearchResult}
    (hc : c.score = (none : Fl)) (s : List SearchResult) :
    orderedInsertP resLe a (c :: s) = none := by
  simp [orderedInsertP, resLe_none_right (a := a) hc]

/-- With at least two results, a NaN score always reaches a comparison, so the
sort panics. -/
theorem insertionSortP_nan_none :
    ∀ {l : List SearchResult}, 2 ≤ l.length →
      (∃ r ∈ l, r.score = (none : Fl)) → insertionSortP resLe l = none := by
  intro l
  induction l with
  | nil => intro h _; simp at h
  | cons a t ih =>
    intro hlen hnan
    have ht_ne : t ≠ [] := by
      intro h
      subst h
      simp at hlen
    rw [insertionSortP]
    obtain ⟨r, hr, hscore⟩ := hnan
    rcases List.mem_cons.mp hr with rfl | hrt
    · cases hs : insertionSortP resLe t with
      | none => rfl
      | some s =>
        have hsne : s ≠ [] := by
          intro h0
          subst h0
          have hl := (insertionSortP_perm hs).length_eq
          simp at hl
          exact ht_ne (List.length_eq_zero.mp hl.symm)
        show orderedInsertP resLe r s = none
        exact orderedInsertP_none_of_nan hscore hsne
    · by_cases h2 : 2 ≤ t.length
      · rw [ih h2 ⟨r, hrt, hscore⟩]
        rfl
      · have h1 : t.length = 1 := by
          have : 0 < t.length := List.length_pos.mpr ht_ne
          omega
        obtain ⟨b, hb⟩ := List.length_eq_one.mp h1
        subst hb
        rw [List.mem_singleton] at hrt
        subst hrt
        have hsing : insertionSortP resLe [r] = some [r] := rfl
        rw [hsing]
        show orderedInsertP resLe a [r] = none
        exact orderedInsertP_none_of_head_nan hscore []

/-- The score of a NaN-carrying embedding against the query `[1.0]` is NaN. -/
theorem cosine_one_nan : cosine_similarity [some (1 : ℝ)] [(none : Fl)] = none := by
  have hma : magnitude [some (1 : ℝ)] ≠ some 0 := by
    have h1 : ([some (1 : ℝ)] : List Fl) = toFl [1] := rfl
    rw [h1]
    exact magnitude_toFl_ne [1] (by norm_num [realSumSq])
  have hmb : magnitude [(none : Fl)] = none := rfl
  rw [cosine_similarity, if_neg (by simp), if_neg (by simp [hma, hmb]), hmb,
    fmul_none, fdiv_none]

/-- Claim C10 counterexample: a store holding a single document whose embedding is
`[NaN]` produces the NaN score `none`, yet `search` returns normally (a
one-element list is sorted without any comparison), contradicting the claim that
any NaN score makes `search` panic. -/
theorem C10_counterexample :
    cosine_similarity [some (1 : ℝ)]
        (Document.new [78] [] [(none : Fl)]).embedding = none ∧
    VectorStore.search [Document.new [78] [] [(none : Fl)]] [some (1 : ℝ)] 5 =
      some [⟨Document.new [78] [] [(none : Fl)], none⟩] := by
  constructor
  · exact cosine_one_nan
  · have hsc : scoredResults [Document.new [78] [] [(none : Fl)]] [some (1 : ℝ)] =
        [⟨Document.new [78] [] [(none : Fl)], none⟩] := by
      simp only [scoredResults, List.map_cons, List.map_nil]
      rw [show (Document.new [78] [] [(none : Fl)]).embedding = [(none : Fl)] from rfl]
      rw [cosine_one_nan]
    rw [VectorStore.search, hsc]
    rfl

/-- Claim C10 amended: `search` panics on a NaN score only when at least two results are
sorted; with all scores non-NaN it returns normally, and with at least two stored
documents any NaN score panics.  (With a single stored document a NaN score is
returned normally — the counterexample above.) -/
theorem C10_nan_panic_amended (docs : VectorStore) (q : List Fl) (topk : Nat) :
    (AllSome (scoredResults docs q) →
      ∃ res, VectorStore.search docs q topk = some res) ∧
    (2 ≤ docs.length → (∃ r ∈ scoredResults docs q, r.score = (none : Fl)) →
      VectorStore.search docs q topk = none) := by
  constructor
  · intro hall
    obtain ⟨full, hf⟩ := insertionSortP_isSome hall
    exact ⟨full.take topk, by rw [VectorStore.search, hf, Option.map_some']⟩
  · intro hlen hnan
    have h2 : 2 ≤ (scoredResults docs q).length := by
      rw [scoredResults, List.length_map]
      exact hlen
    rw [VectorStore.search, insertionSortP_nan_none h2 hnan]
    rfl

/-- Witness for C10 (amended): a two-document store where the second document's
embedding is `[NaN]` makes `search` panic. -/
theorem C10_nan_panic_amended_witness :
    VectorStore.search
      [Document.new [65] [] [some (1 : ℝ)], Document.new [78] [] [(none : Fl)]]
      [some (1 : ℝ)] 3 = none :=
  (C10_nan_panic_amended
      [Document.new [65] [] [some (1 : ℝ)], Document.new [78] [] [(none : Fl)]]
      [some (1 : ℝ)] 3).2 (by norm_num)
    ⟨⟨Document.new [78] [] [(none : Fl)],
        cosine_similarity [some (1 : ℝ)] (Document.new [78] [] [(none : Fl)]).embedding⟩,
      by simp [scoredResults], cosine_one_nan⟩

/-- Witness for C1: a one-document store queried with its own embedding, `top_k = 1`. -/
theorem C1_search_ranked_witness :
    ∃ full : List SearchResult,
      VectorStore.search [Document.new [49] [] (toFl [1])] (toFl [1]) 1 =
        some (full.take 1) ∧
      full.Perm (scoredResults [Document.new [49] [] (toFl [1])] (toFl [1])) ∧
      full.Pairwise scoreGe ∧
      (∀ c : ℝ, full.filter (fun r => decide (r.score = some c)) =
        (scoredResults [Document.new [49] [] (toFl [1])] (toFl [1])).filter
          (fun r => decide (r.score = some c))) ∧
      (full.take 1).length ≤ 1 ∧
      (1 = 0 → full.take 1 = []) :=
  C1_search_ranked [Document.new [49] [] (toFl [1])] [1] 1 (by
    intro d hd
    rw [List.mem_singleton] at hd
    subst hd
    exact ⟨[1], rfl⟩)

/-! ### C6: the add/search round trip -/

theorem cosine_one_one : cosine_similarity (toFl [1]) (toFl [1]) = some 1 :=
  cosine_toFl_self [1] (magnitude_toFl_ne [1] (by norm_num [realSumSq]))

/-- Claim C6 counterexample: the store already holds a document (id `"A"`) whose embedding
equals the added document's embedding (id `"B"`).  After adding `B` and searching
with the same vector, both score `1.0` and the stable sort keeps insertion order,
so the first result is `A`, not the just-added `B`. -/
theorem C6_counterexample :
    VectorStore.search
        (VectorStore.add [Document.new [65] [] (toFl [1])]
          (Document.new [66] [] (toFl [1]))) (toFl [1]) 2 =
      some [⟨Document.new [65] [] (toFl [1]), some 1⟩,
        ⟨Document.new [66] [] (toFl [1]), some 1⟩] ∧
    (Document.new [65] [] (toFl [1])).id ≠ (Document.new [66] [] (toFl [1])).id := by
  constructor
  · have hadd : VectorStore.add [Document.new [65] [] (toFl [1])]
        (Document.new [66] [] (toFl [1])) =
        [Document.new [65] [] (toFl [1]), Document.new [66] [] (toFl [1])] := rfl
    have hsc : scoredResults
        [Document.new [65] [] (toFl [1]), Document.new [66] [] (toFl [1])]
        (toFl [1]) =
        [⟨Document.new [65] [] (toFl [1]), some 1⟩,
          ⟨Document.new [66] [] (toFl [1]), some 1⟩] := by
      simp only [scoredResults, List.map_cons, List.map_nil]
      rw [show (Document.new [65] [] (toFl [1])).embedding = toFl [1] from rfl,
        show (Document.new [66] [] (toFl [1])).embedding = toFl [1] from rfl,
        cosine_one_one]
    have hle : resLe ⟨Document.new [65] [] (toFl [1]), some 1⟩
        ⟨Document.new [66] [] (toFl [1]), some 1⟩ = some true :=
      resLe_eq_true rfl rfl le_rfl
    have hsort : insertionSortP resLe
        [⟨Document.new [65] [] (toFl [1]), some 1⟩,
          ⟨Document.new [66] [] (toFl [1]), some 1⟩] =
        some [⟨Document.new [65] [] (toFl [1]), some 1⟩,
          ⟨Document.new [66] [] (toFl [1]), some 1⟩] := by
      rw [insertionSortP,
        show insertionSortP resLe [⟨Document.new [66] [] (toFl [1]), some 1⟩] =
          some [⟨Document.new [66] [] (toFl [1]), some 1⟩] from rfl]
      show orderedInsertP resLe _ _ = _
      simp [orderedInsertP, hle]
    rw [VectorStore.search, hadd, hsc, hsort]
    rfl
  · simp [Document.new]

/-- Claim C6 amended: if no already-stored document scores exactly `1.0` against `E` (all
stored embeddings NaN-free), `E` has nonzero magnitude, and `top_k ≥ 1`, then adding
a document with embedding `E` and searching with `E` returns that document first
with score `1.0`. -/
theorem C6_round_trip_amended (docs : VectorStore) (d : Document) (E : List ℝ)
    (topk : Nat) (hd : d.embedding = toFl E)
    (hmag : magnitude (toFl E) ≠ some 0)
    (hreal : ∀ x ∈ docs, ∃ v : List ℝ, x.embedding = toFl v)
    (hne1 : ∀ x ∈ docs, cosine_similarity (toFl E) x.embedding ≠ some 1)
    (htop : 1 ≤ topk) :
    ∃ rest, VectorStore.search (VectorStore.add docs d) (toFl E) topk =
      some (⟨d, some 1⟩ :: rest) := by
  have hcosd : cosine_similarity (toFl E) d.embedding = some 1 := by
    rw [hd]
    exact cosine_toFl_self E hmag
  have hsc : scoredResults (VectorStore.add docs d) (toFl E) =
      scoredResults docs (toFl E) ++ [⟨d, some 1⟩] := by
    rw [VectorStore.add, scoredResults, List.map_append, List.map_cons, List.map_nil,
      hcosd]
    rfl
  have hold : ∀ x ∈ scoredResults docs (toFl E), ∃ c : ℝ, x.score = some c ∧ c < 1 := by
    intro x hx
    have hne := hne1
    simp only [scoredResults, List.mem_map] at hx
    obtain ⟨dx, hdx, rfl⟩ := hx
    obtain ⟨v, hv⟩ := hreal dx hdx
    obtain ⟨c, hc⟩ := cosine_toFl_total E v
    have hc' : cosine_similarity (toFl E) dx.embedding = some c := by
      rw [hv]
      exact hc
    refine ⟨c, hc', lt_of_le_of_ne (cosine_toFl_le_one E v c hc) ?_⟩
    intro h1
    subst h1
    exact hne1 dx hdx hc'
  have hall : AllSome (scoredResults (VectorStore.add docs d) (toFl E)) := by
    rw [hsc]
    intro r hr
    rcases List.mem_append.mp hr with h | h
    · obtain ⟨c, hc, _⟩ := hold r h
      exact ⟨c, hc⟩
    · rw [List.mem_singleton] at h
      subst h
      exact ⟨1, rfl⟩
  obtain ⟨full, hsort⟩ := insertionSortP_isSome hall
  have hperm := insertionSortP_perm hsort
  have hpair := insertionSortP_pairwise hsort
  have hmemd : (⟨d, some 1⟩ : SearchResult) ∈ full := by
    rw [hperm.mem_iff, hsc]
    exact List.mem_append_right _ (List.mem_singleton_self _)
  cases hfull : full with
  | nil =>
    rw [hfull] at hmemd
    cases hmemd
  | cons h t =>
    have hhead : h = ⟨d, some 1⟩ := by
      have hhmem : h ∈ scoredResults docs (toFl E) ++ [⟨d, some 1⟩] := by
        rw [← hsc, ← hperm.mem_iff, hfull]
        exact List.mem_cons_self _ _
      rcases List.mem_append.mp hhmem with hcase | hcase
      · obtain ⟨c, hc, hclt⟩ := hold h hcase
        rw [hfull] at hmemd
        rcases List.mem_cons.mp hmemd with heq | hmt
        · exact heq.symm
        · rw [hfull] at hpair
          have hge := List.rel_of_pairwise_cons hpair hmt
          obtain ⟨x, y, hx, hy, hyx⟩ := hge
          rw [hc] at hx
          cases hx
          simp only [Option.some.injEq] at hy
          subst hy
          linarith
      · rw [List.mem_singleton] at hcase
        exact hcase
    obtain ⟨k, rfl⟩ : ∃ k, topk = k + 1 := by
      cases topk with
      | zero => cases htop
      | succ k => exact ⟨k, rfl⟩
    refine ⟨t.take k, ?_⟩
    rw [VectorStore.search, hsort, Option.map_some', hfull, hhead, List.take_succ_cons]

/-- Witness for C6 (amended): an empty store, then a document with embedding `[1]`. -/
theorem C6_round_trip_amended_witness :
    ∃ rest, VectorStore.search (VectorStore.add [] (Document.new [49] [] (toFl [1])))
        (toFl [1]) 1 = some (⟨Document.new [49] [] (toFl [1]), some 1⟩ :: rest) :=
  C6_round_trip_amended [] (Document.new [49] [] (toFl [1])) [1] 1 rfl
    (magnitude_toFl_ne [1] (by norm_num [realSumSq]))
    (fun x hx => absurd hx (List.not_mem_nil x))
    (fun x hx => absurd hx (List.not_mem_nil x)) le_rfl

/-! ### Lemmas: chunking -/

theorem isCharBoundary_length (text : List Nat) :
    isCharBoundary text text.length = true := by
  rw [isCharBoundary]
  rw [List.get?_eq_none.mpr le_rfl]
  simp

theorem isCharBoundary_of_ascii (text : List Nat) (h : ∀ b ∈ text, b < 128)
    (i : Nat) (hi : i < text.length) : isCharBoundary text i = true := by
  have hb : text.get? i = some (text.get ⟨i, hi⟩) := List.get?_eq_get hi
  rw [isCharBoundary, hb]
  have hbm : text.get ⟨i, hi⟩ ∈ text := List.get_mem text i hi
  simp only [Bool.or_eq_true, decide_eq_true_eq]
  exact Or.inr (Or.inl (h _ hbm))

theorem byteSlice_ok (text : List Nat) (s e : Nat) (hse : s ≤ e)
    (hb1 : isCharBoundary text s = true) (hb2 : isCharBoundary text e = true) :
    byteSlice text s e = some ((text.drop s).take (e - s)) := by
  simp [byteSlice, hse, hb1, hb2]

theorem take_min_eq (text : List Nat) (start cs : Nat) :
    (text.drop start).take (min (start + cs) text.length - start) =
      (text.drop start).take cs := by
  rcases le_or_lt (start + cs) text.length with h | h
  · rw [min_eq_left h, Nat.add_sub_cancel_left]
  · rw [min_eq_right h.le]
    have hlen : (text.drop start).length = text.length - start := List.length_drop _ _
    rw [List.take_of_length_le (by omega), List.take_of_length_le (by omega)]

theorem chunkLoop_succ_step (text : List Nat) (cs ov f start : Nat)
    (acc : List (List Nat)) (hs : start < text.length) (piece : List Nat)
    (hslice : byteSlice text start (min (start + cs) text.length) = some piece) :
    chunkLoop text cs ov (f + 1) start acc =
      if min (start + cs) text.length = text.length then .ok (acc ++ [piece])
      else if cs < ov then .error .panic
      else chunkLoop text cs ov f (start + (cs - ov)) (acc ++ [piece]) := by
  simp only [chunkLoop, if_pos hs, hslice]

/-- The invariant of the chunking loop: from any reached window start, with step
`cs - ov ≥ 1` and all window offsets on character boundaries, the loop returns the
successive windows, each of nominal length `cs`, all but the last ending strictly
before the end of the text and the last reaching it. -/
theorem chunkLoop_spec (text : List Nat) (cs ov : Nat) (hov : ov < cs) :
    ∀ (fuel start : Nat) (acc : List (List Nat)),
      start < text.length →
      text.length - start ≤ fuel →
      (∀ k, start + k * (cs - ov) < text.length →
        isCharBoundary text (start + k * (cs - ov)) = true) →
      (∀ k, start + k * (cs - ov) + cs < text.length →
        isCharBoundary text (start + k * (cs - ov) + cs) = true) →
      ∃ ws : List (List Nat),
        chunkLoop text cs ov fuel start acc = .ok (acc ++ ws) ∧
        ws ≠ [] ∧
        (∀ k (hk : k < ws.length),
          ws.get ⟨k, hk⟩ = (text.drop (start + k * (cs - ov))).take cs) ∧
        (∀ k, k + 1 < ws.length → start + k * (cs - ov) + cs < text.length) ∧
        text.length ≤ start + (ws.length - 1) * (cs - ov) + cs := by
  intro fuel
  induction fuel with
  | zero => intro start acc hs hf _ _; omega
  | succ f ih =>
    intro start acc hs hf hb1 hb2
    have hbs : isCharBoundary text start = true := by
      have h := hb1 0 (by simpa using hs)
      simpa using h
    have hbe : isCharBoundary text (min (start + cs) text.length) = true := by
      rcases lt_or_le (start + cs) text.length with h | h
      · rw [min_eq_left h.le]
        have h2 := hb2 0 (by simpa using h)
        simpa using h2
      · rw [min_eq_right h]
        exact isCharBoundary_length text
    have hslice : byteSlice text start (min (start + cs) text.length) =
        some ((text.drop start).take cs) := by
      rw [byteSlice_ok text start _ (le_min (by omega) (by omega)) hbs hbe,
        take_min_eq]
    rw [chunkLoop_succ_step text cs ov f start acc hs _ hslice]
    by_cases hend : min (start + cs) text.length = text.length
    · rw [if_pos hend]
      refine ⟨[(text.drop start).take cs], rfl, by simp, ?_, ?_, ?_⟩
      · intro k hk
        have hk0 : k = 0 := by simpa using hk
        subst hk0
        simp
      · intro k hk
        simp at hk
      · simp only [List.length_singleton]
        omega
    · rw [if_neg hend, if_neg (by omega)]
      have hlt : start + cs < text.length := by omega
      have hs' : start + (cs - ov) < text.length := by omega
      have hf' : text.length - (start + (cs - ov)) ≤ f := by omega
      have hb1' : ∀ k, start + (cs - ov) + k * (cs - ov) < text.length →
          isCharBoundary text (start + (cs - ov) + k * (cs - ov)) = true := by
        intro k hk
        have heq : start + (cs - ov) + k * (cs - ov) =
            start + (k + 1) * (cs - ov) := by ring
        rw [heq] at hk ⊢
        exact hb1 (k + 1) hk
      have hb2' : ∀ k, start + (cs - ov) + k * (cs - ov) + cs < text.length →
          isCharBoundary text (start + (cs - ov) + k * (cs - ov) + cs) = true := by
        intro k hk
        have heq : start + (cs - ov) + k * (cs - ov) + cs =
            start + (k + 1) * (cs - ov) + cs := by ring
        rw [heq] at hk ⊢
        exact hb2 (k + 1) hk
      obtain ⟨ws', hloop, hne, hget, hfull, hlast⟩ :=
        ih (start + (cs - ov)) (acc ++ [(text.drop start).take cs]) hs' hf' hb1' hb2'
      refine ⟨(text.drop start).take cs :: ws', ?_, by simp, ?_, ?_, ?_⟩
      · rw [hloop, List.append_assoc]
        rfl
      · intro k hk
        cases k with
        | zero => simp
        | succ j =>
          have hj : j < ws'.length := by simpa using hk
          have heq : start + (j + 1) * (cs - ov) =
              start + (cs - ov) + j * (cs - ov) := by ring
          rw [List.get_cons_succ, hget j hj, heq]
      · intro k hk
        cases k with
        | zero => simpa using hlt
        | succ j =>
          have hj : j + 1 < ws'.length := by simpa using hk
          have heq : start + (j + 1) * (cs - ov) + cs =
              start + (cs - ov) + j * (cs - ov) + cs := by ring
          rw [heq]
          exact hfull j hj
      · have hn : 1 ≤ ws'.length := List.length_pos.mpr hne
        have heq : start + (cs - ov) + (ws'.length - 1) * (cs - ov) =
            start + ws'.length * (cs - ov) := by
          have h1 : ws'.length - 1 + 1 = ws'.length := Nat.sub_add_cancel hn
          calc start + (cs - ov) + (ws'.length - 1) * (cs - ov)
              = start + (ws'.length - 1 + 1) * (cs - ov) := by ring
            _ = start + ws'.length * (cs - ov) := by rw [h1]
        rw [heq] at hlast
        have hlen : ((text.drop start).take cs :: ws').length - 1 = ws'.length := by
          simp
        rw [hlen]
        exact hlast

/-- Claim C3: when the whole text fits in one chunk, `chunk_text` returns exactly `[text]`
(for any overlap); otherwise — under the spec precondition `overlap < chunk_size`
and with every window offset on a character boundary — it returns the successive
windows of length `chunk_size` in left-to-right order, each start advanced by
`chunk_size − overlap`, the last (possibly shorter) window ending exactly at
`len(text)`; and on the spec example, `chunk("0123456789ABCDEF", 10, 2)` yields
`["0123456789", "89ABCDEF"]`. -/
theorem C3_chunk_windows :
    (∀ (text : List Nat) (cs ov : Nat), text.length ≤ cs →
      chunk_text text cs ov = .ok [text]) ∧
    (∀ (text : List Nat) (cs ov : Nat), ov < cs → cs < text.length →
      (∀ k, k * (cs - ov) < text.length →
        isCharBoundary text (k * (cs - ov)) = true) →
      (∀ k, k * (cs - ov) + cs < text.length →
        isCharBoundary text (k * (cs - ov) + cs) = true) →
      ∃ ws : List (List Nat),
        chunk_text text cs ov = .ok ws ∧
        ws ≠ [] ∧
        (∀ k (hk : k < ws.length),
          ws.get ⟨k, hk⟩ = (text.drop (k * (cs - ov))).take cs) ∧
        (∀ k, k + 1 < ws.length → k * (cs - ov) + cs < text.length) ∧
        text.length ≤ (ws.length - 1) * (cs - ov) + cs) ∧
    chunk_text sampleBytes 10 2 =
      .ok [[48, 49, 50, 51, 52, 53, 54, 55, 56, 57],
        [56, 57, 65, 66, 67, 68, 69, 70]] := by
  refine ⟨?_, ?_, rfl⟩
  · intro text cs ov h
    rw [chunk_text, if_pos h]
  · intro text cs ov hov hlen hb1 hb2
    obtain ⟨ws, hloop, hne, hget, hfull, hlast⟩ :=
      chunkLoop_spec text cs ov hov (text.length + 1) 0 [] (by omega) (by omega)
        (fun k hk => by simpa using hb1 k (by simpa using hk))
        (fun k hk => by simpa using hb2 k (by simpa using hk))
    refine ⟨ws, ?_, hne, ?_, ?_, ?_⟩
    · rw [chunk_text, if_neg (by omega), hloop]
      rfl
    · intro k hk
      have h := hget k hk
      rw [h]
      simp
    · intro k hk
      have h := hfull k hk
      omega
    · omega

/-- Witness for C3: the fits-in-one-chunk case at `"H"` and the window case at the
spec's 16-byte example with `chunk_size = 10`, `overlap = 2`. -/
theorem C3_chunk_windows_witness :
    chunk_text [72] 10 2 = .ok [[72]] ∧
    (∃ ws : List (List Nat),
      chunk_text sampleBytes 10 2 = .ok ws ∧
      ws ≠ [] ∧
      (∀ k (hk : k < ws.length),
        ws.get ⟨k, hk⟩ = (sampleBytes.drop (k * (10 - 2))).take 10) ∧
      (∀ k, k + 1 < ws.length → k * (10 - 2) + 10 < sampleBytes.length) ∧
      sampleBytes.length ≤ (ws.length - 1) * (10 - 2) + 10) := by
  have hall : ∀ i, i < sampleBytes.length → isCharBoundary sampleBytes i = true := by
    decide
  exact ⟨C3_chunk_windows.1 [72] 10 2 (by decide),
    C3_chunk_windows.2.1 sampleBytes 10 2 (by decide) (by decide)
      (fun k hk => hall _ hk) (fun k hk => hall _ hk)⟩

/-- Claim C4 (code bug): `chunk_text` performs no parameter validation.  With
`overlap = chunk_size` on the spec's 16-byte example the step is `0` and the
`while` loop never terminates (it re-appends the first window for every amount of
fuel); with `overlap > chunk_size` the step computation underflows (a panic in the
model, matching the debug-build behavior).  No `ConfigurationError` exists in the
code's error type, so the required rejection before I/O cannot happen. -/
theorem C4_no_configuration_error :
    (∀ fuel acc, chunkLoop sampleBytes 10 10 fuel 0 acc = .error .diverge) ∧
    chunk_text sampleBytes 10 10 = .error .diverge ∧
    chunk_text sampleBytes 10 12 = .error .panic := by
  have hloop : ∀ fuel acc, chunkLoop sampleBytes 10 10 fuel 0 acc = .error .diverge := by
    intro fuel
    induction fuel with
    | zero => intro acc; rfl
    | succ f ih =>
      intro acc
      exact ih (acc ++ [(sampleBytes.drop 0).take (min (0 + 10) sampleBytes.length - 0)])
  refine ⟨hloop, ?_, rfl⟩
  rw [chunk_text, if_neg (by decide)]
  exact hloop (sampleBytes.length + 1) []

/-- Claim C9: `chunk_text` slices at byte offsets.  For any text whose bytes are all
ASCII (hence every offset is a character boundary), any `overlap < chunk_size`
terminates and returns normally; but on the two-character text `"éé"`
(bytes `C3 A9 C3 A9`) with `chunk_size = 3`, `overlap = 0`, the first window
boundary falls inside the second `é` and the call panics instead of returning
chunks. -/
theorem C9_byte_offset_slicing :
    (∀ (text : List Nat) (cs ov : Nat), ov < cs → (∀ b ∈ text, b < 128) →
      ∃ ws, chunk_text text cs ov = .ok ws) ∧
    chunk_text [195, 169, 195, 169] 3 0 = .error .panic := by
  refine ⟨?_, rfl⟩
  intro text cs ov hov hascii
  rcases le_or_lt text.length cs with h | h
  · exact ⟨[text], by rw [chunk_text, if_pos h]⟩
  · obtain ⟨ws, hloop, _, _, _, _⟩ :=
      chunkLoop_spec text cs ov hov (text.length + 1) 0 [] (by omega) (by omega)
        (fun k hk => isCharBoundary_of_ascii text hascii _ hk)
        (fun k hk => isCharBoundary_of_ascii text hascii _ hk)
    refine ⟨ws, ?_⟩
    rw [chunk_text, if_neg (by omega), hloop]
    rfl

/-- Witness for C9: the ASCII text `"Hi!"` with `chunk_size = 2`, `overlap = 1`
chunks normally, and the multi-byte example panics. -/
theorem C9_byte_offset_slicing_witness :
    (∃ ws, chunk_text [72, 105, 33] 2 1 = .ok ws) ∧
    chunk_text [195, 169, 195, 169] 3 0 = .error .panic :=
  ⟨C9_byte_offset_slicing.1 [72, 105, 33] 2 1 (by decide) (by decide),
    C9_byte_offset_slicing.2⟩

/-! ### C5: duplicate ids -/

/-- Claim C5 (code bug): `VectorStore::add` is an unconditional `push`: adding a second
document with the SAME id `"1"` appends a duplicate instead of overwriting, the
count rises to `2`, and both stored documents carry the id `"1"`. -/
theorem C5_duplicate_id_appended :
    VectorStore.add (VectorStore.add [] (Document.new [49] [97] [some 1]))
        (Document.new [49] [98] [some 1]) =
      [Document.new [49] [97] [some 1], Document.new [49] [98] [some 1]] ∧
    VectorStore.count
      (VectorStore.add (VectorStore.add [] (Document.new [49] [97] [some 1]))
        (Document.new [49] [98] [some 1])) = 2 ∧
    (Document.new [49] [97] [some 1]).id = (Document.new [49] [98] [some 1]).id :=
  ⟨rfl, rfl, rfl⟩

/-! ### Lemmas: directory indexing -/

theorem indexChunks_ok (embed : EmbedFn) (hembed : ∀ t, ∃ v, embed t = .ok v)
    (path : List Nat) :
    ∀ (chunks : List (List Nat)) (i : Nat) (st : VectorStore),
      indexChunks embed path i chunks st =
        .ok (st ++ chunkDocs embed path i chunks) := by
  intro chunks
  induction chunks with
  | nil => intro i st; simp [indexChunks, chunkDocs]
  | cons c rest ih =>
    intro i st
    obtain ⟨v, hv⟩ := hembed c
    simp only [indexChunks, hv]
    rw [ih (i + 1) (VectorStore.add st (chunkDoc path c i v))]
    simp only [chunkDocs, hv, Except.toOption, Option.getD_some, VectorStore.add,
      List.append_assoc, List.singleton_append]

theorem chunkDocs_length (embed : EmbedFn) (path : List Nat) :
    ∀ (chunks : List (List Nat)) (i : Nat),
      (chunkDocs embed path i chunks).length = chunks.length := by
  intro chunks
  induction chunks with
  | nil => intro i; rfl
  | cons c rest ih => intro i; simp [chunkDocs, ih]

theorem chunkDocs_get (embed : EmbedFn) (path : List Nat) :
    ∀ (chunks : List (List Nat)) (i k : Nat) (hk : k < chunks.length)
      (hk2 : k < (chunkDocs embed path i chunks).length),
      (chunkDocs embed path i chunks).get ⟨k, hk2⟩ =
        chunkDoc path (chunks.get ⟨k, hk⟩) (i + k)
          ((embed (chunks.get ⟨k, hk⟩)).toOption.getD []) := by
  intro chunks
  induction chunks with
  | nil => intro i k hk; simp at hk
  | cons c rest ih =>
    intro i k hk hk2
    cases k with
    | zero => simp [chunkDocs]
    | succ j =>
      have hj : j < rest.length := by simpa using hk
      have hj2 : j < (chunkDocs embed path (i + 1) rest).length := by
        rw [chunkDocs_length]
        exact hj
      have hstep : (chunkDocs embed path i (c :: rest)).get ⟨j + 1, hk2⟩ =
          (chunkDocs embed path (i + 1) rest).get ⟨j, hj2⟩ := rfl
      rw [hstep, ih (i + 1) j hj hj2]
      have harith : i + 1 + j = i + (j + 1) := by omega
      rw [harith]
      rfl

theorem index_directory_ok (embed : EmbedFn) (hembed : ∀ t, ∃ v, embed t = .ok v)
    (cs ov : Nat) :
    ∀ (files : List IndexedFile) (st : VectorStore),
      (∀ f ∈ files, ∃ chunks, chunk_text f.content cs ov = .ok chunks) →
      index_directory embed cs ov files st =
        .ok (files.length,
          st ++ files.flatMap (fun f =>
            chunkDocs embed f.path 0 ((chunk_text f.content cs ov).toOption.getD []))) := by
  intro files
  induction files with
  | nil => intro st _; simp [index_directory]
  | cons f rest ih =>
    intro st hok
    obtain ⟨chunks, hch⟩ := hok f (List.mem_cons_self f rest)
    have h1 := indexChunks_ok embed hembed f.path chunks 0 st
    have h2 := ih (st ++ chunkDocs embed f.path 0 chunks)
      (fun g hg => hok g (List.mem_cons_of_mem f hg))
    simp only [index_directory, hch, h1, h2, List.flatMap_cons, Except.toOption,
      Option.getD_some, List.length_cons, List.append_assoc]

/-- Claim C7: with every file's chunking and every chunk's embedding succeeding,
`index_directory` returns the number of files (not chunks) processed, and appends
to the store, per file and per chunk index `i`, exactly one document whose id is
`"<file-path>_chunk_<i>"`, whose content is the chunk, whose embedding is the
chunk's embedding, and whose metadata is `{source: file-path, chunk: i}`. -/
theorem C7_index_directory_spec (embed : EmbedFn) (cs ov : Nat)
    (hembed : ∀ t, ∃ v, embed t = .ok v) :
    (∀ (files : List IndexedFile) (st : VectorStore),
      (∀ f ∈ files, ∃ chunks, chunk_text f.content cs ov = .ok chunks) →
      index_directory embed cs ov files st =
        .ok (files.length,
          st ++ files.flatMap (fun f =>
            chunkDocs embed f.path 0 ((chunk_text f.content cs ov).toOption.getD [])))) ∧
    (∀ path chunk i emb,
      (chunkDoc path chunk i emb).id = path ++ chunkSepBytes ++ natStr i ∧
      (chunkDoc path chunk i emb).content = chunk ∧
      (chunkDoc path chunk i emb).embedding = emb ∧
      (chunkDoc path chunk i emb).metadata =
        [(chunkKey, natStr i), (sourceKey, path)]) ∧
    (∀ path chunks i, (chunkDocs embed path i chunks).length = chunks.length) ∧
    (∀ (path : List Nat) (chunks : List (List Nat)) (i k : Nat)
      (hk : k < chunks.length) (hk2 : k < (chunkDocs embed path i chunks).length),
      (chunkDocs embed path i chunks).get ⟨k, hk2⟩ =
        chunkDoc path (chunks.get ⟨k, hk⟩) (i + k)
          ((embed (chunks.get ⟨k, hk⟩)).toOption.getD [])) :=
  ⟨index_directory_ok embed hembed cs ov,
    fun _ _ _ _ => ⟨rfl, rfl, rfl, rfl⟩,
    fun path chunks i => chunkDocs_length embed path chunks i,
    fun path chunks i k hk hk2 => chunkDocs_get embed path chunks i k hk hk2⟩

/-- Witness for C7: one file (path `"a"`, content `"hi"`), chunk size 10, overlap 2,
a constant embedder. -/
theorem C7_index_directory_spec_witness :
    index_directory (fun _ => .ok [some (1 : ℝ)]) 10 2
        [⟨[97], [104, 105]⟩] [] =
      .ok (([⟨[97], [104, 105]⟩] : List IndexedFile).length,
        [] ++ ([⟨[97], [104, 105]⟩] : List IndexedFile).flatMap (fun f =>
          chunkDocs (fun _ => .ok [some (1 : ℝ)]) f.path 0
            ((chunk_text f.content 10 2).toOption.getD []))) :=
  (C7_index_directory_spec (fun _ => .ok [some (1 : ℝ)]) 10 2
      (fun _ => ⟨[some (1 : ℝ)], rfl⟩)).1 [⟨[97], [104, 105]⟩] []
    (by
      intro f hf
      rw [List.mem_singleton] at hf
      subst hf
      exact ⟨[[104, 105]], rfl⟩)

/-! ### C8: retrieve_context -/

/-- Claim C8: `retrieve_context` returns the empty string, not an error, exactly when the
store is empty or the search returns no results; an embedding failure on a
non-empty store surfaces as that error (never as an empty context); and with
results it returns the fixed header followed by the numbered entries — a
non-empty string. -/
theorem C8_retrieve_context_spec (embed : EmbedFn) (top_k : Nat) (st : VectorStore)
    (query : List Nat) :
    (st = [] → retrieve_context embed top_k st query = some (.ok [])) ∧
    (∀ e, st ≠ [] → embed query = .error e →
      retrieve_context embed top_k st query = some (.error e)) ∧
    (∀ qv results, st ≠ [] → embed query = .ok qv →
      VectorStore.search st qv top_k = some results →
      ((results = [] → retrieve_context embed top_k st query = some (.ok [])) ∧
        (results ≠ [] →
          retrieve_context embed top_k st query =
            some (.ok (renderResults results)) ∧
          renderResults results ≠ []))) := by
  refine ⟨?_, ?_, ?_⟩
  · intro h
    subst h
    rfl
  · intro e hne hemb
    have hlen : ¬ (VectorStore.count st = 0) := by
      simpa [VectorStore.count, List.length_eq_zero] using hne
    simp only [retrieve_context, if_neg hlen, hemb]
  · intro qv results hne hemb hsearch
    have hlen : ¬ (VectorStore.count st = 0) := by
      simpa [VectorStore.count, List.length_eq_zero] using hne
    constructor
    · intro hres
      subst hres
      simp [retrieve_context, if_neg hlen, hemb, hsearch]
    · intro hres
      have hrlen : ¬ (results.length = 0) := by
        simpa [List.length_eq_zero] using hres
      constructor
      · simp only [retrieve_context, if_neg hlen, hemb, hsearch, if_neg hrlen]
      · simp [renderResults, contextHeader]

/-- Witness for C8: the empty store returns the empty string. -/
theorem C8_retrieve_context_spec_witness :
    retrieve_context (fun _ => .ok []) 3 [] [104] = some (.ok []) :=
  (C8_retrieve_context_spec (fun _ => .ok []) 3 [] [104]).1 rfl

end Rag
